import Mathlib

/-!
Verification development for the `custom-sql-metrics` program (`main.go`).

The program polls SQL queries and stores the latest results in a single
process-wide map `App.metrics : map[string]interface{}`, which two HTTP
handlers encode as Prometheus exposition text and as JSON.  This file gives
a shallow embedding of the pure content of that code:

* `SqlValue` models the dynamic values produced by the database driver
  (`nil`, `[]byte`, integers);
* `Store` models `App.metrics` as an association list with unique keys
  (a Go map, together with one concrete iteration order — Go's map
  iteration order is unspecified, so encoders take the order as input);
* `runQuery` models `App.runQuery` (main.go lines 108-207): the result of
  one poll applied to the store, with the query outcome reified as an
  `Option QueryResult` (`none` = query/columns error) and each row either a
  decoded value list or `none` (= `rows.Scan` error);
* `buildLabelsKey`, `storeKey` model the string keys built on lines 189-199
  and 210-229;
* `promLines`/`promEncode` model the `/metrics` handler `handleMetrics`
  (lines 231-351) and `jsonEncodeStore` models `/metrics.json`
  (`handleMetricsJSON`, lines 362-402).

Go standard-library collaborators (`sort.Strings`, `fmt.Sprintf("%v"/"%g")`,
`strconv.ParseFloat`, `encoding/json`) are modelled by executable Lean
functions; the doc comment of each such function records the modelled
domain.
-/

namespace SqlMetrics

/-- Dynamic values scanned from a result row (`values[i] interface{}` in
`runQuery`).  The MySQL driver yields `nil` for NULL, `[]byte` for textual
columns and `int64` for integer columns; these are the shapes the program's
own switch statements distinguish. -/
inductive SqlValue where
  | vNull : SqlValue
  | vBytes (s : String) : SqlValue
  | vInt (n : Int) : SqlValue
deriving DecidableEq, Repr

/-- One stored metric: either a bare value (`a.metrics[metric.Name] = values[valueIdx]`,
line 198) or a value together with its label map (lines 192-195). -/
inductive Entry where
  | direct (v : SqlValue) : Entry
  | labeled (v : SqlValue) (labels : List (String × String)) : Entry
deriving DecidableEq, Repr

/-- The process-wide metrics map `App.metrics`, as an association list.
The list order additionally fixes one iteration order for the encoders. -/
abbrev Store := List (String × Entry)

/-- Result of a successful `db.Query` + `rows.Columns()` call: the column
names, the scanned rows (`none` models a row whose `rows.Scan` failed) and
whether `rows.Err()` reports a trailing cursor error after the last row. -/
structure QueryResult where
  columns : List String
  rows : List (Option (List SqlValue))
  rowsErr : Bool
deriving DecidableEq, Repr

/-- Association-list lookup, modelling a Go map read. -/
def lookupStr (k : String) : List (String × String) → Option String
  | [] => none
  | (k2, v) :: rest => if k2 = k then some v else lookupStr k rest

/-- Go map read with the zero value for a missing key (`labels[k]`). -/
def lookupD (labels : List (String × String)) (k : String) : String :=
  (lookupStr k labels).getD ""

/-- Association-list insert with replacement, modelling a Go map write
`m[k] = v` on a `map[string]string`. -/
def insertA (k v : String) : List (String × String) → List (String × String)
  | [] => [(k, v)]
  | (k2, v2) :: rest => if k2 = k then (k, v) :: rest else (k2, v2) :: insertA k v rest

/-- Association-list lookup on the store, modelling `a.metrics[k]`. -/
def lookupE (k : String) : Store → Option Entry
  | [] => none
  | (k2, e) :: rest => if k2 = k then some e else lookupE k rest

/-- Store write with replacement, modelling `a.metrics[k] = v`. -/
def insertE (k : String) (e : Entry) : Store → Store
  | [] => [(k, e)]
  | (k2, e2) :: rest => if k2 = k then (k, e) :: rest else (k2, e2) :: insertE k e rest

/-- Go's `len(k) >= len(pfx) && k[:len(pfx)] == pfx` (line 154): byte-wise
prefix test, which on valid UTF-8 agrees with the character-wise one. -/
def hasPfx (pfx k : String) : Bool := pfx.data.isPrefixOf k.data

/-- Byte-wise lexicographic comparison of strings, modelling the order used
by `sort.Strings` (on UTF-8 encoded strings the byte order and the code
point order coincide). -/
def leChars : List Char → List Char → Bool
  | [], _ => true
  | _ :: _, [] => false
  | a :: as, b :: bs => if a = b then leChars as bs else decide (a < b)

/-- The sorting relation fed to insertion sort: `sort.Strings` order. -/
def strLeR (a b : String) : Prop := leChars a.data b.data = true

instance : DecidableRel strLeR := fun a b => instDecidableEqBool _ _

/-- Stringification of a non-`value` column into a label value
(lines 174-184): `nil` becomes `"null"`, `[]byte` decodes as text, and
other values use `fmt.Sprintf("%v", v)` — for the integer values modelled
here `%v` prints the signed decimal digits, as `Int`'s `toString` does. -/
def stringifyLabel : SqlValue → String
  | .vNull => "null"
  | .vBytes s => s
  | .vInt n => toString n

/-- The label-building loop of `runQuery` (lines 166-187): for each column
index `i` except `valueIdx`, set `labels[col] = stringifyLabel values[i]`.
`n` is the index of the first column of `cols` within the full column list. -/
def buildLabelsFrom (row : List SqlValue) (vIdx : Nat) :
    Nat → List String → List (String × String) → List (String × String)
  | _, [], acc => acc
  | n, c :: cs, acc =>
    if n = vIdx then buildLabelsFrom row vIdx (n + 1) cs acc
    else buildLabelsFrom row vIdx (n + 1) cs
      (insertA c (stringifyLabel (row.getD n .vNull)) acc)

/-- Labels of one row: the loop of lines 166-187 started at column 0 with
an empty map. -/
def buildLabels (cols : List String) (row : List SqlValue) (vIdx : Nat) :
    List (String × String) :=
  buildLabelsFrom row vIdx 0 cols []

/-- The writer loop of `buildLabelsKey` (lines 219-228): pieces joined by
`"_"` via a string builder. -/
def joinU : List String → String
  | [] => ""
  | [p] => p
  | p :: rest => p ++ "_" ++ joinU rest

/-- `buildLabelsKey` (lines 210-229): sort the label keys with
`sort.Strings`, then concatenate `k ++ "_" ++ labels[k]` pieces separated
by `"_"`. -/
def buildLabelsKey (labels : List (String × String)) : String :=
  let keys := List.insertionSort strLeR (labels.map Prod.fst)
  joinU (keys.map (fun k => k ++ "_" ++ lookupD labels k))

/-- The store key of a labeled series: `prefix + buildLabelsKey(labels)`
with `prefix = metric.Name + "_"` (lines 151 and 191). -/
def storeKey (name : String) (labels : List (String × String)) : String :=
  name ++ "_" ++ buildLabelsKey labels

/-- The linear scan of lines 125-131 locating the first column named
exactly `value`; `none` models `valueIdx == -1`. -/
def findValueIdx (cols : List String) : Option Nat :=
  cols.findIdx? (fun c => c = "value")

/-- What one row contributes to the store (lines 159-199): a scanning
failure (`none`) is skipped; otherwise the row yields a labeled entry under
`storeKey` when it has labels, and a bare entry under the metric name when
it has none. -/
def rowEntry? (name : String) (cols : List String) (vIdx : Nat) :
    Option (List SqlValue) → Option (String × Entry)
  | none => none
  | some vals =>
    let labels := buildLabels cols vals vIdx
    if labels.isEmpty then some (name, .direct (vals.getD vIdx .vNull))
    else some (storeKey name labels, .labeled (vals.getD vIdx .vNull) labels)

/-- The prefix-deletion loop of lines 151-157: drop every stored key that
starts with `name ++ "_"`. -/
def clearFamily (name : String) (s : Store) : Store :=
  s.filter (fun kv => !hasPfx (name ++ "_") kv.1)

/-- One poll applied to the store: `App.runQuery` (lines 108-207).
`res = none` models an error from `db.Query` or `rows.Columns()` (early
return, store untouched); a missing `value` column also returns before any
mutation.  Otherwise the keys prefixed `name ++ "_"` are deleted and the
row loop inserts one entry per successfully scanned row; `rows.Err()` is
only logged, so `rowsErr` does not influence the resulting store. -/
def runQuery (name : String) (res : Option QueryResult) (store : Store) : Store :=
  match res with
  | none => store
  | some r =>
    match findValueIdx r.columns with
    | none => store
    | some vIdx =>
      r.rows.foldl (fun s row =>
        match rowEntry? name r.columns vIdx row with
        | none => s
        | some (k, e) => insertE k e s) (clearFamily name store)

/-- Piecewise concatenation of string fragments, as a Go `strings.Builder`
or successive writer calls produce. -/
def strConcat : List String → String
  | [] => ""
  | s :: rest => s ++ strConcat rest

/-- Numeric rendering of a sample value: `fmt.Sprintf("%g", floatValue)`
(lines 346-348).  `%g` is external library behavior; it is modelled here
for `float64` values that are integers of magnitude below `2^53` and below
`10^21`, where `%g` prints the plain signed decimal digits. -/
def gFormat (n : Int) : String := toString n

/-- `strconv.ParseFloat(string(v), 64)` on a `[]byte` value (lines 270 and
303), modelled for strings in signed decimal integer syntax (the shapes
this development evaluates it at); other strings are treated as parse
failures, as Go treats non-numeric text. -/
def parseNum? (s : String) : Option Int := s.toInt?

/-- The float-conversion switch of `handleMetrics` (lines 252-316, the same
switch duplicated for the labeled and the direct case): integers convert
exactly, `[]byte` is parsed as a number, anything else (including `nil`,
which matches no case) is skipped. -/
def toFloat? : SqlValue → Option Int
  | .vInt n => some n
  | .vBytes s => parseNum? s
  | .vNull => none

/-- The numeric value of a store entry, `none` when the entry is skipped
with a diagnostic (lines 275-281 and 308-314). -/
def entryFloat? : Entry → Option Int
  | .direct v => toFloat? v
  | .labeled v _ => toFloat? v

/-- Base-name extraction of lines 319-322 (also lines 375-378): truncate
the store key at its first `"_"` when that underscore is at a positive
index, otherwise keep the key unchanged. -/
def baseNameOf (name : String) : String :=
  let b := name.data.takeWhile (fun c => c ≠ '_')
  if b.isEmpty then name else String.mk b

/-- `escapeLabelValue` (lines 354-360): one-pass replacement of backslash,
newline and double quote. -/
def escapeLabelValue (value : String) : String :=
  strConcat (value.data.map (fun c =>
    if c = '\\' then "\\\\"
    else if c = '\n' then "\\n"
    else if c = '"' then "\\\""
    else String.singleton c))

/-- Comma-joined `k="escaped v"` pieces of the label block (lines 330-344),
in the iteration order of the label map. -/
def labelPairsStr : List (String × String) → String
  | [] => ""
  | [(k, v)] => k ++ "=\"" ++ escapeLabelValue v ++ "\""
  | (k, v) :: rest => k ++ "=\"" ++ escapeLabelValue v ++ "\"," ++ labelPairsStr rest

/-- The lines one loop iteration of `handleMetrics` writes for one store
entry (lines 239-350): nothing when the value is non-numeric, otherwise a
`# HELP` line, a `# TYPE` line and one sample line (braced labels exactly
when the entry has a nonempty label map). -/
def entryLines : String × Entry → List String
  | (name, e) =>
    match entryFloat? e with
    | none => []
    | some f =>
      let base := baseNameOf name
      let sample :=
        match e with
        | .labeled _ labels =>
          if labels.isEmpty then base ++ " " ++ gFormat f
          else base ++ "\x7b" ++ labelPairsStr labels ++ "\x7d " ++ gFormat f
        | .direct _ => base ++ " " ++ gFormat f
      ["# HELP " ++ base ++ " Value from custom SQL query",
       "# TYPE " ++ base ++ " gauge",
       sample]

/-- All lines written by `handleMetrics` over one iteration order of the
store. -/
def promLines (s : Store) : List String := s.flatMap entryLines

/-- The `/metrics` response body: each line followed by `"\n"` as written
by the `Fprintf` calls. -/
def promEncode (s : Store) : String :=
  strConcat ((promLines s).map (fun l => l ++ "\n"))

/-- A value of the JSON response object built by `handleMetricsJSON`
(lines 370-399): either a bare stored value or the grouped array of
`(value, labels)` items accumulated for a base name. -/
inductive RespVal where
  | scalar (v : SqlValue) : RespVal
  | group (items : List (SqlValue × List (String × String))) : RespVal
deriving DecidableEq, Repr

/-- Response-map lookup (`response[baseName]`). -/
def lookupR (k : String) : List (String × RespVal) → Option RespVal
  | [] => none
  | (k2, v) :: rest => if k2 = k then some v else lookupR k rest

/-- Response-map write with replacement (`response[baseName] = metrics`). -/
def insertR (k : String) (v : RespVal) : List (String × RespVal) → List (String × RespVal)
  | [] => [(k, v)]
  | (k2, v2) :: rest => if k2 = k then (k, v) :: rest else (k2, v2) :: insertR k v rest

/-- One loop iteration of `handleMetricsJSON` (lines 372-399): a labeled
entry is appended to the array grouped under the truncated base name (the
type assertion on line 382 makes any existing non-array value restart the
group from an empty array); a direct value is stored under the full key. -/
def addEntry (resp : List (String × RespVal)) : String × Entry → List (String × RespVal)
  | (name, .direct v) => insertR name (.scalar v) resp
  | (name, .labeled v labels) =>
    let base := baseNameOf name
    let items :=
      match lookupR base resp with
      | some (.group items) => items
      | _ => []
    insertR base (.group (items ++ [(v, labels)])) resp

/-- Comma-joined JSON pieces. -/
def joinComma : List String → String
  | [] => ""
  | [p] => p
  | p :: rest => p ++ "," ++ joinComma rest

/-- One character of Go `encoding/json` string escaping, modelled for the
escapes exercised here (quote, backslash, newline); the full Go escaper
additionally encodes control characters and `<`, `>`, `&` as `\uXXXX`, all
outside the modelled domain. -/
def jsonEscapeChar (c : Char) : String :=
  if c = '"' then "\\\""
  else if c = '\\' then "\\\\"
  else if c = '\n' then "\\n"
  else String.singleton c

/-- Go `encoding/json` string escaping over the modelled characters. -/
def jsonEscape (s : String) : String :=
  strConcat (s.data.map jsonEscapeChar)

/-- The base64 alphabet of Go's `encoding/base64.StdEncoding`. -/
def b64Char (n : Nat) : Char :=
  "ABCDEFGHIJKLMNOPQRSTUVWXYZabcdefghijklmnopqrstuvwxyz0123456789+/".data.getD n 'A'

/-- Standard base64 with padding over a byte list, as Go's `encoding/json`
applies to `[]byte` values. -/
def base64Bytes : List Nat → String
  | [] => ""
  | [a] => String.mk [b64Char (a / 4), b64Char (a % 4 * 16), '=', '=']
  | [a, b] => String.mk [b64Char (a / 4), b64Char (a % 4 * 16 + b / 16), b64Char (b % 16 * 4), '=']
  | a :: b :: c :: rest =>
    String.mk [b64Char (a / 4), b64Char (a % 4 * 16 + b / 16),
      b64Char (b % 16 * 4 + c / 64), b64Char (c % 64)] ++ base64Bytes rest

/-- Base64 of the UTF-8 bytes of a string. -/
def base64 (s : String) : String :=
  base64Bytes (s.toUTF8.toList.map UInt8.toNat)

/-- Go `encoding/json` rendering of one stored value: integers in decimal,
`nil` as `null`, `[]byte` as a base64 JSON string. -/
def jsonValue : SqlValue → String
  | .vInt n => toString n
  | .vNull => "null"
  | .vBytes s => "\"" ++ base64 s ++ "\""

/-- Go `encoding/json` rendering of a `map[string]string`: an object with
the keys in sorted order. -/
def jsonLabels (labels : List (String × String)) : String :=
  let keys := List.insertionSort strLeR (labels.map Prod.fst)
  "\x7b" ++ joinComma (keys.map (fun k =>
    "\"" ++ jsonEscape k ++ "\":\"" ++ jsonEscape (lookupD labels k) ++ "\"")) ++ "\x7d"

/-- Go `encoding/json` rendering of one response value: a bare value, or an
array of `\x7b"labels": ..., "value": ...\x7d` objects (object keys in
sorted order, as `json.Marshal` emits for maps). -/
def jsonRespVal : RespVal → String
  | .scalar v => jsonValue v
  | .group items =>
    "[" ++ joinComma (items.map (fun it =>
      "\x7b\"labels\":" ++ jsonLabels it.2 ++ ",\"value\":" ++ jsonValue it.1 ++ "\x7d")) ++ "]"

/-- The `/metrics.json` response body: the response map built by the
handler loop, serialized by `json.NewEncoder(w).Encode` — an object with
keys in sorted order followed by a newline. -/
def jsonEncodeStore (s : Store) : String :=
  let resp := s.foldl addEntry []
  let keys := List.insertionSort strLeR (resp.map Prod.fst)
  "\x7b" ++ joinComma (keys.map (fun k =>
    "\"" ++ jsonEscape k ++ "\":" ++ jsonRespVal ((lookupR k resp).getD (.scalar .vNull)))) ++
    "\x7d\n"

/-! ### Helper lemmas about the store operations -/

theorem lookupE_insertE (k k2 : String) (e : Entry) (s : Store) :
    lookupE k2 (insertE k e s) = if k = k2 then some e else lookupE k2 s := by
  induction s with
  | nil => simp [insertE, lookupE]
  | cons kv rest ih =>
    obtain ⟨k3, e3⟩ := kv
    by_cases h3 : k3 = k
    · subst h3
      by_cases h2 : k3 = k2 <;> simp [insertE, lookupE, h2]
    · by_cases h2 : k3 = k2
      · subst h2
        have hk : ¬ k = k3 := fun h => h3 h.symm
        simp [insertE, lookupE, h3, hk]
      · simp [insertE, lookupE, h3, h2, ih]

theorem lookupE_fold_rows (name : String) (cols : List String) (vIdx : Nat)
    (rows : List (Option (List SqlValue))) (init : Store) (k : String)
    (hk : k ∉ (rows.filterMap (rowEntry? name cols vIdx)).map Prod.fst) :
    lookupE k (rows.foldl (fun s row =>
      match rowEntry? name cols vIdx row with
      | none => s
      | some (k1, e1) => insertE k1 e1 s) init) = lookupE k init := by
  induction rows generalizing init with
  | nil => rfl
  | cons row rest ih =>
    simp only [List.foldl_cons]
    cases h : rowEntry? name cols vIdx row with
    | none =>
      simp only [h]
      exact ih init (by simpa [List.filterMap_cons, h] using hk)
    | some p =>
      obtain ⟨k1, e1⟩ := p
      have hne : k1 ≠ k := by
        intro hkk
        subst hkk
        exact hk (by simp [List.filterMap_cons, h])
      have hrest : k ∉ (rest.filterMap (rowEntry? name cols vIdx)).map Prod.fst := by
        intro hmem
        exact hk (by simp [List.filterMap_cons, h, hmem])
      simp only [h]
      rw [ih _ hrest, lookupE_insertE, if_neg hne]

theorem lookupE_clearFamily_of_not_pfx (name k : String) (s : Store)
    (h : hasPfx (name ++ "_") k = false) :
    lookupE k (clearFamily name s) = lookupE k s := by
  induction s with
  | nil => rfl
  | cons kv rest ih =>
    obtain ⟨k2, e2⟩ := kv
    simp only [clearFamily, List.filter_cons] at ih ⊢
    by_cases h2 : k2 = k
    · subst h2
      simp [h, lookupE]
    · cases hp : hasPfx (name ++ "_") k2 <;> simp [hp, lookupE, h2, ih]

theorem lookupE_clearFamily_of_pfx (name k : String) (s : Store)
    (h : hasPfx (name ++ "_") k = true) :
    lookupE k (clearFamily name s) = none := by
  induction s with
  | nil => rfl
  | cons kv rest ih =>
    obtain ⟨k2, e2⟩ := kv
    simp only [clearFamily, List.filter_cons] at ih ⊢
    by_cases h2 : k2 = k
    · subst h2
      simp [h, lookupE, ih]
    · cases hp : hasPfx (name ++ "_") k2 <;> simp [hp, lookupE, h2, ih]

theorem hasPfx_self_underscore (name : String) : hasPfx (name ++ "_") name = false := by
  simp only [hasPfx]
  by_contra h
  rw [Bool.not_eq_false] at h
  have hp := List.isPrefixOf_iff_prefix.mp h
  have hl := hp.length_le
  rw [String.data_append] at hl
  simp at hl

/-! ### Claim C3: a result set without a `value` column leaves the store
untouched -/

/-- Claim C3: when the successful query result has no column named exactly
`value`, the poll is a schema failure and the store is not mutated at all:
the prior snapshot of that family and of every other family is unchanged. -/
theorem runQuery_missing_value_column (name : String) (r : QueryResult) (store : Store)
    (hv : "value" ∉ r.columns) :
    runQuery name (some r) store = store := by
  have h : findValueIdx r.columns = none := by
    rw [findValueIdx, List.findIdx?_eq_none_iff]
    intro x hx
    simp only [decide_eq_false_iff_not]
    intro hxv
    exact hv (hxv ▸ hx)
  simp [runQuery, h]

/-- Witness for C3 at a concrete input: a result with only a `count` column
leaves a nonempty store byte-for-byte unchanged. -/
theorem runQuery_missing_value_column_witness :
    runQuery "m" (some ⟨["count"], [some [.vInt 3]], false⟩)
        [("x", .direct (.vInt 9))] = [("x", .direct (.vInt 9))] :=
  runQuery_missing_value_column "m" ⟨["count"], [some [.vInt 3]], false⟩
    [("x", .direct (.vInt 9))] (by decide)

/-! ### Claim C8: row failures skip only that row; a trailing cursor error
does not discard the accumulated series -/

/-- Claim C8: a failure while scanning an individual row skips only that
row — the poll result is the same as if the failing row were absent — and
the trailing `rows.Err()` cursor error is only logged: the store committed
by the poll is identical whether or not a trailing error is present, so the
already-accumulated series are still committed. -/
theorem runQuery_row_skip_and_trailing_error (name : String) (cols : List String)
    (rest rows : List (Option (List SqlValue))) (e : Bool) (store : Store) :
    runQuery name (some ⟨cols, none :: rest, e⟩) store
      = runQuery name (some ⟨cols, rest, e⟩) store
    ∧ runQuery name (some ⟨cols, rows, true⟩) store
      = runQuery name (some ⟨cols, rows, false⟩) store := by
  constructor
  · cases h : findValueIdx cols <;> simp [runQuery, h, rowEntry?]
  · cases h : findValueIdx cols <;> simp [runQuery, h]

/-! ### Claim C1: what committing a poll does to the store -/

/-- Claim C1, amended: committing a successful poll of metric `name`
deletes exactly the stored entries whose key starts with `name ++ "_"` and
then inserts one entry per decoded row.  In particular a stored key that
does not carry the prefix and is not among the inserted keys is unchanged —
but the deleted prefix range is keyed textually, not by family: it does not
contain the family's own unlabeled key `name`, and it does contain keys of
any other family whose name starts with `name ++ "_"`, so cross-family
deletion is possible (see the counterexample). -/
theorem runQuery_frame (name : String) (r : QueryResult) (store : Store) (k : String)
    (vIdx : Nat) (hv : findValueIdx r.columns = some vIdx)
    (hk : k ∉ (r.rows.filterMap (rowEntry? name r.columns vIdx)).map Prod.fst) :
    (hasPfx (name ++ "_") k = false →
      lookupE k (runQuery name (some r) store) = lookupE k store)
    ∧ (hasPfx (name ++ "_") k = true →
      lookupE k (runQuery name (some r) store) = none) := by
  constructor <;> intro hp
  · rw [runQuery]
    simp only [hv]
    rw [lookupE_fold_rows name r.columns vIdx r.rows _ k hk]
    exact lookupE_clearFamily_of_not_pfx name k store hp
  · rw [runQuery]
    simp only [hv]
    rw [lookupE_fold_rows name r.columns vIdx r.rows _ k hk]
    exact lookupE_clearFamily_of_pfx name k store hp

/-- Witness for C1 at a concrete input: polling metric `m` with one
unlabeled row leaves the unrelated stored key `x` unchanged, and erases the
stale prefixed key `m_old`. -/
theorem runQuery_frame_witness :
    lookupE "x" (runQuery "m" (some ⟨["value"], [some [.vInt 7]], false⟩)
        [("x", .direct (.vInt 1)), ("m_old", .direct (.vInt 2))])
      = some (.direct (.vInt 1))
    ∧ lookupE "m_old" (runQuery "m" (some ⟨["value"], [some [.vInt 7]], false⟩)
        [("x", .direct (.vInt 1)), ("m_old", .direct (.vInt 2))])
      = none := by
  refine ⟨?_, ?_⟩
  · have h := runQuery_frame "m" ⟨["value"], [some [.vInt 7]], false⟩
      [("x", .direct (.vInt 1)), ("m_old", .direct (.vInt 2))] "x" 0
      (by decide) (by decide)
    rw [h.1 (by decide)]
    decide
  · have h := runQuery_frame "m" ⟨["value"], [some [.vInt 7]], false⟩
      [("x", .direct (.vInt 1)), ("m_old", .direct (.vInt 2))] "m_old" 0
      (by decide) (by decide)
    exact h.2 (by decide)

/-- Counterexample to C1 as stated: the store holds only the series of
family `a_b` (its unlabeled entry, key `a_b`); a successful zero-row poll
of the distinct metric `a` deletes it, because `a_b` starts with the
deletion prefix `a_`.  So committing a poll of `M` does not leave the
stored series of every other family unchanged. -/
theorem runQuery_cross_family_deletion_cex :
    lookupE "a_b" [("a_b", Entry.direct (.vInt 1))] = some (.direct (.vInt 1))
    ∧ ("a_b" : String) ≠ "a"
    ∧ runQuery "a" (some ⟨["value"], [], false⟩) [("a_b", .direct (.vInt 1))] = [] := by
  decide

/-! ### Claim C2: a zero-row poll and previously known series -/

/-- Claim C2, amended: a successful poll returning zero rows (with a
`value` column present) clears every previously stored *labeled* series of
the family — every key carrying the `name ++ "_"` prefix is gone — but a
previously stored unlabeled scalar for the family, stored under the bare
key `name`, is retained unchanged rather than cleared. -/
theorem runQuery_zero_rows (name : String) (cols : List String) (e : Bool) (store : Store)
    (vIdx : Nat) (hv : findValueIdx cols = some vIdx) :
    lookupE name (runQuery name (some ⟨cols, [], e⟩) store) = lookupE name store
    ∧ ∀ k, hasPfx (name ++ "_") k = true →
        lookupE k (runQuery name (some ⟨cols, [], e⟩) store) = none := by
  constructor
  · rw [runQuery]
    simp only [hv, List.foldl_nil]
    exact lookupE_clearFamily_of_not_pfx name name store (hasPfx_self_underscore name)
  · intro k hk
    rw [runQuery]
    simp only [hv, List.foldl_nil]
    exact lookupE_clearFamily_of_pfx name k store hk

/-- Witness for C2 at a concrete input: a zero-row poll of `m` erases the
stale labeled key `m_s_x` and keeps the bare key `m`. -/
theorem runQuery_zero_rows_witness :
    lookupE "m" (runQuery "m" (some ⟨["value"], [], false⟩)
        [("m", .direct (.vInt 5)), ("m_s_x", .labeled (.vInt 1) [("s", "x")])])
      = some (.direct (.vInt 5))
    ∧ lookupE "m_s_x" (runQuery "m" (some ⟨["value"], [], false⟩)
        [("m", .direct (.vInt 5)), ("m_s_x", .labeled (.vInt 1) [("s", "x")])])
      = none := by
  have h := runQuery_zero_rows "m" ["value"] false
    [("m", .direct (.vInt 5)), ("m_s_x", .labeled (.vInt 1) [("s", "x")])] 0 (by decide)
  refine ⟨?_, h.2 "m_s_x" (by decide)⟩
  rw [h.1]
  decide

/-- Counterexample to C2 as stated: family `m` has a previously known
unlabeled series (key `m`, value 5); a successful zero-row poll of `m`
leaves the snapshot with that series still present, so the snapshot does
not contain "no series at all" for the family. -/
theorem runQuery_zero_rows_retains_unlabeled_cex :
    runQuery "m" (some ⟨["value"], [], false⟩) [("m", .direct (.vInt 5))]
      = [("m", .direct (.vInt 5))]
    ∧ lookupE "m" (runQuery "m" (some ⟨["value"], [], false⟩)
        [("m", .direct (.vInt 5))]) = some (.direct (.vInt 5)) := by
  decide

/-! ### The `sort.Strings` order is a total order -/

theorem leChars_total (as bs : List Char) : leChars as bs = true ∨ leChars bs as = true := by
  induction as generalizing bs with
  | nil => left; rfl
  | cons a as ih =>
    cases bs with
    | nil => right; rfl
    | cons b bs =>
      by_cases hab : a = b
      · subst hab
        simpa [leChars] using ih bs
      · have hba : ¬ b = a := fun h => hab h.symm
        simp only [leChars, if_neg hab, if_neg hba, decide_eq_true_eq]
        exact lt_or_gt_of_ne hab

theorem leChars_trans (as bs cs : List Char) (h1 : leChars as bs = true)
    (h2 : leChars bs cs = true) : leChars as cs = true := by
  induction as generalizing bs cs with
  | nil => rfl
  | cons a as ih =>
    cases bs with
    | nil => simp [leChars] at h1
    | cons b bs =>
      cases cs with
      | nil => simp [leChars] at h2
      | cons c cs =>
        by_cases hab : a = b <;> by_cases hbc : b = c
        · subst hab; subst hbc
          simp only [leChars, if_pos rfl] at h1 h2 ⊢
          exact ih bs cs h1 h2
        · subst hab
          simp only [leChars, if_pos rfl, if_neg hbc] at h1 h2 ⊢
          exact h2
        · subst hbc
          simp only [leChars, if_neg hab, if_pos rfl] at h1 h2 ⊢
          exact h1
        · simp only [leChars, if_neg hab, if_neg hbc, decide_eq_true_eq] at h1 h2
          have hac : a < c := lt_trans h1 h2
          have hac' : ¬ a = c := ne_of_lt hac
          simp [leChars, if_neg hac', hac]

theorem leChars_antisymm (as bs : List Char) (h1 : leChars as bs = true)
    (h2 : leChars bs as = true) : as = bs := by
  induction as generalizing bs with
  | nil =>
    cases bs with
    | nil => rfl
    | cons b bs => simp [leChars] at h2
  | cons a as ih =>
    cases bs with
    | nil => simp [leChars] at h1
    | cons b bs =>
      by_cases hab : a = b
      · subst hab
        simp only [leChars, if_pos rfl] at h1 h2
        rw [ih bs h1 h2]
      · have hba : ¬ b = a := fun h => hab h.symm
        simp only [leChars, if_neg hab, if_neg hba, decide_eq_true_eq] at h1 h2
        exact absurd h2 (lt_asymm h1)

instance : IsTotal String strLeR := ⟨fun a b => leChars_total a.data b.data⟩

instance : IsTrans String strLeR := ⟨fun a b c => leChars_trans a.data b.data c.data⟩

instance : IsAntisymm String strLeR :=
  ⟨fun a b h1 h2 => String.ext (leChars_antisymm a.data b.data h1 h2)⟩

/-! ### Helper lemmas about label maps -/

theorem lookupStr_insertA (k k2 v : String) (l : List (String × String)) :
    lookupStr k2 (insertA k v l) = if k = k2 then some v else lookupStr k2 l := by
  induction l with
  | nil => simp [insertA, lookupStr]
  | cons kv rest ih =>
    obtain ⟨k3, v3⟩ := kv
    by_cases h3 : k3 = k
    · subst h3
      by_cases h2 : k3 = k2 <;> simp [insertA, lookupStr, h2]
    · by_cases h2 : k3 = k2
      · subst h2
        have hk : ¬ k = k3 := fun h => h3 h.symm
        simp [insertA, lookupStr, h3, hk]
      · simp [insertA, lookupStr, h3, h2, ih]

theorem lookupStr_buildLabelsFrom_of_not_mem (row : List SqlValue) (vIdx : Nat)
    (c : String) (cs : List String) (n : Nat) (acc : List (String × String))
    (hc : c ∉ cs) :
    lookupStr c (buildLabelsFrom row vIdx n cs acc) = lookupStr c acc := by
  induction cs generalizing n acc with
  | nil => rfl
  | cons d cs ih =>
    have hdc : d ≠ c := fun h => hc (h ▸ List.mem_cons_self d cs)
    have hcs : c ∉ cs := fun h => hc (List.mem_cons_of_mem d h)
    by_cases hn : n = vIdx
    · simp only [buildLabelsFrom, if_pos hn]
      exact ih (n + 1) acc hcs
    · simp only [buildLabelsFrom, if_neg hn]
      rw [ih (n + 1) _ hcs, lookupStr_insertA, if_neg hdc]

theorem lookupStr_buildLabelsFrom (row : List SqlValue) (vIdx : Nat)
    (cs : List String) (n i : Nat) (acc : List (String × String))
    (hnd : cs.Nodup) (hi : i < cs.length) (hne : n + i ≠ vIdx) :
    lookupStr (cs.getD i "") (buildLabelsFrom row vIdx n cs acc)
      = some (stringifyLabel (row.getD (n + i) .vNull)) := by
  induction cs generalizing n i acc with
  | nil => exact absurd hi (Nat.not_lt_zero i)
  | cons c cs ih =>
    have hcn : c ∉ cs := (List.nodup_cons.mp hnd).1
    have hnd' : cs.Nodup := (List.nodup_cons.mp hnd).2
    cases i with
    | zero =>
      have hn : n ≠ vIdx := by simpa using hne
      simp only [List.getD_cons_zero, buildLabelsFrom, if_neg hn]
      rw [lookupStr_buildLabelsFrom_of_not_mem row vIdx c cs (n + 1) _ hcn,
        lookupStr_insertA, if_pos rfl]
      rfl
    | succ i =>
      have hi' : i < cs.length := by simpa using hi
      have harith : (n + 1) + i = n + (i + 1) := by omega
      by_cases hn : n = vIdx
      · simp only [List.getD_cons_succ, buildLabelsFrom, if_pos hn]
        rw [ih (n + 1) i acc hnd' hi' (by omega), harith]
      · simp only [List.getD_cons_succ, buildLabelsFrom, if_neg hn]
        rw [ih (n + 1) i _ hnd' hi' (by omega), harith]

/-! ### Claim C9: stringification of non-`value` columns into label values -/

/-- Claim C9: for a decoded row, every non-`value` column (index `i`
different from the `value` column's index, with distinct column names)
contributes the label `columns[i] ↦ stringifyLabel values[i]`, where the
stringification rules are: a byte/textual value decodes as its text, a NULL
value becomes the literal string `"null"`, and other (integer) values use
the default decimal textual representation. -/
theorem runQuery_label_stringification (cols : List String) (row : List SqlValue)
    (vIdx i : Nat) (hnd : cols.Nodup) (hi : i < cols.length) (hne : i ≠ vIdx) :
    lookupStr (cols.getD i "") (buildLabels cols row vIdx)
      = some (stringifyLabel (row.getD i .vNull))
    ∧ stringifyLabel .vNull = "null"
    ∧ (∀ s, stringifyLabel (.vBytes s) = s)
    ∧ (∀ n : Int, stringifyLabel (.vInt n) = toString n) := by
  refine ⟨?_, rfl, fun s => rfl, fun n => rfl⟩
  have h := lookupStr_buildLabelsFrom row vIdx cols 0 i [] hnd hi (by simpa using hne)
  simpa [buildLabels] using h

/-- Witness for C9 at a concrete input: the `status` column of the row
`(status = []byte "active", value = 5)` becomes the label
`status ↦ "active"`; a NULL column becomes `"null"`; an integer column
becomes its decimal digits. -/
theorem runQuery_label_stringification_witness :
    lookupStr "status" (buildLabels ["status", "value"] [.vBytes "active", .vInt 5] 1)
      = some "active"
    ∧ lookupStr "flag" (buildLabels ["flag", "value"] [.vNull, .vInt 5] 1) = some "null"
    ∧ lookupStr "n" (buildLabels ["n", "value"] [.vInt (-3), .vInt 5] 1) = some "-3" := by
  refine ⟨?_, ?_, ?_⟩
  · have h := runQuery_label_stringification ["status", "value"]
      [.vBytes "active", .vInt 5] 1 0 (by decide) (by decide) (by decide)
    exact h.1
  · have h := runQuery_label_stringification ["flag", "value"]
      [.vNull, .vInt 5] 1 0 (by decide) (by decide) (by decide)
    exact h.1
  · have h := runQuery_label_stringification ["n", "value"]
      [.vInt (-3), .vInt 5] 1 0 (by decide) (by decide) (by decide)
    exact h.1

/-! ### Claim C10: `buildLabelsKey` depends only on the label map -/

theorem lookupStr_perm {L1 L2 : List (String × String)} (hp : L1.Perm L2)
    (hnd : (L1.map Prod.fst).Nodup) (k : String) :
    lookupStr k L1 = lookupStr k L2 := by
  induction hp with
  | nil => rfl
  | cons x h ih =>
    simp only [lookupStr]
    by_cases hx : x.1 = k
    · simp [hx]
    · simp only [if_neg hx]
      exact ih (by simpa using (List.nodup_cons.mp (by simpa using hnd)).2)
  | swap x y l =>
    have hxy : y.1 ≠ x.1 := by
      simp only [List.map_cons, List.nodup_cons, List.mem_cons] at hnd
      exact fun h => hnd.1 (Or.inl h)
    simp only [lookupStr]
    by_cases hy : y.1 = k <;> by_cases hx : x.1 = k
    · exact absurd (hy.trans hx.symm) hxy
    · simp [hy, hx]
    · simp [hy, hx]
    · simp [hy, hx]
  | trans h1 h2 ih1 ih2 =>
    rw [ih1 hnd, ih2 (((h1.map Prod.fst).nodup_iff).mp hnd)]

/-- Claim C10: `buildLabelsKey` is a pure function of the label set as a
mapping: for any two association lists that are permutations of each other
(with no duplicate keys), the produced key string is identical — the keys
are sorted before concatenation, so the result does not depend on insertion
or iteration order. -/
theorem buildLabelsKey_perm_invariant (L1 L2 : List (String × String))
    (hp : L1.Perm L2) (hnd : (L1.map Prod.fst).Nodup) :
    buildLabelsKey L1 = buildLabelsKey L2 := by
  have hkeys : List.insertionSort strLeR (L1.map Prod.fst)
      = List.insertionSort strLeR (L2.map Prod.fst) := by
    refine List.eq_of_perm_of_sorted ?_ (List.sorted_insertionSort strLeR _)
      (List.sorted_insertionSort strLeR _)
    exact (List.perm_insertionSort strLeR _).trans
      ((hp.map Prod.fst).trans (List.perm_insertionSort strLeR _).symm)
  rw [buildLabelsKey, buildLabelsKey, hkeys]
  congr 1
  refine List.map_congr_left (fun k hk => ?_)
  rw [lookupD, lookupD, lookupStr_perm hp hnd k]

/-- Witness for C10 at a concrete input: the two insertion orders of the
label map `(a ↦ 1, b ↦ 2)` yield the same key string. -/
theorem buildLabelsKey_perm_invariant_witness :
    buildLabelsKey [("b", "2"), ("a", "1")] = buildLabelsKey [("a", "1"), ("b", "2")]
    ∧ buildLabelsKey [("b", "2"), ("a", "1")] = "a_1_b_2" := by
  refine ⟨buildLabelsKey_perm_invariant _ _ (by decide) (by decide), by decide⟩

/-! ### Claim C4: HELP/TYPE lines are emitted per store entry, not per
family -/

/-- Claim C4, amended: the Prometheus encoder emits one `# HELP` line, one
`# TYPE` line and one sample line per *store entry* whose value is numeric
(and nothing for a skipped entry) — not one HELP/TYPE pair per family.  A
family with two labeled series occupies two store entries and therefore
receives two HELP/TYPE pairs along with its two sample lines. -/
theorem promLines_per_entry (s : Store) :
    (promLines s).length = 3 * (s.countP (fun kv => (entryFloat? kv.2).isSome))
    ∧ ∀ name e f, entryFloat? e = some f →
        ∃ sample, entryLines (name, e)
          = ["# HELP " ++ baseNameOf name ++ " Value from custom SQL query",
             "# TYPE " ++ baseNameOf name ++ " gauge", sample] := by
  constructor
  · induction s with
    | nil => rfl
    | cons kv rest ih =>
      obtain ⟨name, e⟩ := kv
      cases hf : entryFloat? e with
      | none =>
        simp only [promLines, List.flatMap_cons, List.length_append, List.countP_cons] at ih ⊢
        simp [entryLines, hf, ih]
      | some f =>
        simp only [promLines, List.flatMap_cons, List.length_append, List.countP_cons] at ih ⊢
        simp only [entryLines, hf]
        simp only [List.length_cons, List.length_nil, ih, hf, Option.isSome_some, if_pos]
        ring
  · intro name e f hf
    cases e with
    | direct v =>
      refine ⟨baseNameOf name ++ " " ++ gFormat f, ?_⟩
      simp only [entryLines, hf]
    | labeled v labels =>
      refine ⟨if labels.isEmpty then baseNameOf name ++ " " ++ gFormat f
        else baseNameOf name ++ "\x7b" ++ labelPairsStr labels ++ "\x7d " ++ gFormat f, ?_⟩
      simp only [entryLines, hf]

/-- Witness for C4 (amended) at a concrete input: a rendered labeled entry
produces exactly its own HELP/TYPE pair and sample line. -/
theorem promLines_per_entry_witness :
    (promLines [("jobs_status_active", Entry.labeled (.vInt 150) [("status", "active")])]).length
      = 3 * 1
    ∧ ∃ sample, entryLines ("jobs_status_active", Entry.labeled (.vInt 150) [("status", "active")])
        = ["# HELP " ++ baseNameOf "jobs_status_active" ++ " Value from custom SQL query",
           "# TYPE " ++ baseNameOf "jobs_status_active" ++ " gauge", sample] := by
  have h := promLines_per_entry [("jobs_status_active", Entry.labeled (.vInt 150) [("status", "active")])]
  exact ⟨h.1, h.2 "jobs_status_active" (Entry.labeled (.vInt 150) [("status", "active")]) 150 (by decide)⟩

/-- Counterexample to C4 as stated: for the snapshot holding the two
labeled series `status="active"`/`status="inactive"` of the single family
`jobs`, the encoder output contains two `# HELP` lines and two `# TYPE`
lines for that family, not exactly one of each. -/
theorem prom_help_per_family_cex :
    (promLines [("jobs_status_active", Entry.labeled (.vInt 150) [("status", "active")]),
        ("jobs_status_inactive", Entry.labeled (.vInt 75) [("status", "inactive")])]).countP
      (fun l => l = "# HELP jobs Value from custom SQL query") = 2
    ∧ (promLines [("jobs_status_active", Entry.labeled (.vInt 150) [("status", "active")]),
        ("jobs_status_inactive", Entry.labeled (.vInt 75) [("status", "inactive")])]).countP
      (fun l => l = "# TYPE jobs gauge") = 2 := by
  decide

/-! ### Claim C5: rendering of a single unlabeled series -/

theorem jsonEscapeChar_id (c : Char) (h : c.isAlphanum = true ∨ c = '_') :
    jsonEscapeChar c = String.singleton c := by
  have h1 : ¬ c = '"' := by
    rintro rfl
    rcases h with h | h
    · exact absurd h (by decide)
    · exact absurd h (by decide)
  have h2 : ¬ c = '\\' := by
    rintro rfl
    rcases h with h | h
    · exact absurd h (by decide)
    · exact absurd h (by decide)
  have h3 : ¬ c = '\n' := by
    rintro rfl
    rcases h with h | h
    · exact absurd h (by decide)
    · exact absurd h (by decide)
  simp [jsonEscapeChar, h1, h2, h3]

theorem strConcat_singletons (cs : List Char) :
    strConcat (cs.map String.singleton) = String.mk cs := by
  induction cs with
  | nil => rfl
  | cons c cs ih =>
    show String.singleton c ++ strConcat (cs.map String.singleton) = _
    rw [ih]
    apply String.ext
    rw [String.data_append]
    rfl

theorem jsonEscape_id (s : String) (h : ∀ c ∈ s.data, c.isAlphanum = true ∨ c = '_') :
    jsonEscape s = s := by
  rw [jsonEscape]
  have hmap : s.data.map jsonEscapeChar = s.data.map String.singleton :=
    List.map_congr_left (fun c hc => jsonEscapeChar_id c (h c hc))
  rw [hmap, strConcat_singletons]

/-- Claim C5, amended: for a store whose only entry is the unlabeled series
of family `name` with value 42, the Prometheus encoder emits the sample
line `base 42` where `base` is the family name truncated at its first
underscore (the name verbatim only when it contains no underscore at a
positive index) — not the configured family name verbatim — while the JSON
encoder emits the pair `"name": 42` keyed by the family name verbatim. -/
theorem encoders_unlabeled_42 (name : String)
    (hname : ∀ c ∈ name.data, c.isAlphanum = true ∨ c = '_') :
    promLines [(name, .direct (.vInt 42))]
      = ["# HELP " ++ baseNameOf name ++ " Value from custom SQL query",
         "# TYPE " ++ baseNameOf name ++ " gauge",
         baseNameOf name ++ " 42"]
    ∧ jsonEncodeStore [(name, .direct (.vInt 42))]
      = "\x7b\"" ++ name ++ "\":42\x7d\n" := by
  constructor
  · have hs : baseNameOf name ++ " " ++ gFormat 42 = baseNameOf name ++ " 42" := by
      apply String.ext
      simp only [String.data_append, List.append_assoc]
      congr 1
    calc promLines [(name, .direct (.vInt 42))]
        = ["# HELP " ++ baseNameOf name ++ " Value from custom SQL query",
           "# TYPE " ++ baseNameOf name ++ " gauge",
           baseNameOf name ++ " " ++ gFormat 42] := rfl
      _ = _ := by rw [hs]
  · have hesc := jsonEscape_id name hname
    rw [jsonEncodeStore]
    simp only [List.foldl_cons, List.foldl_nil, addEntry, insertR, List.map_cons,
      List.map_nil, List.insertionSort, List.orderedInsert, lookupR, if_pos rfl,
      joinComma, jsonRespVal, Option.getD_some, jsonValue, hesc]
    apply String.ext
    simp only [String.data_append]
    simp [List.append_assoc]
    rfl

/-- Witness for C5 (amended) at the concrete family name `db_conns`
(containing an underscore): Prometheus truncates the name to `db`, JSON
keeps it verbatim. -/
theorem encoders_unlabeled_42_witness :
    promLines [("db_conns", .direct (.vInt 42))]
      = ["# HELP db Value from custom SQL query", "# TYPE db gauge", "db 42"]
    ∧ jsonEncodeStore [("db_conns", .direct (.vInt 42))]
      = "\x7b\"db_conns\":42\x7d\n" := by
  have h := encoders_unlabeled_42 "db_conns" (by decide)
  refine ⟨?_, h.2⟩
  rw [h.1]
  decide

/-- Counterexample to C5 as stated: for the family name `a_b` the
Prometheus encoder does not emit the sample line `a_b 42` with the family
name verbatim; it emits `a 42`, truncated at the first underscore. -/
theorem prom_underscore_truncation_cex :
    promLines [("a_b", .direct (.vInt 42))]
      = ["# HELP a Value from custom SQL query", "# TYPE a gauge", "a 42"]
    ∧ "a_b 42" ∉ promLines [("a_b", .direct (.vInt 42))] := by
  decide

/-! ### Claim C7: encoder output depends on the map iteration order -/

/-- Claim C7, amended: each encoder is a deterministic function only of the
snapshot *together with* the map iteration order, not of the snapshot
alone.  The Prometheus encoder writes one block of lines per store entry,
so permuting the iteration order permutes the emitted lines (the multiset
of lines is stable), but the concatenated output text can differ between
two iteration orders of the same snapshot — and Go randomizes map
iteration order across encodings. -/
theorem promLines_perm (s1 s2 : Store) (hp : s1.Perm s2) :
    (promLines s1).Perm (promLines s2) :=
  List.Perm.flatMap_right entryLines hp

/-- Witness for C7 (amended) at a concrete input: the two iteration orders
of a two-entry snapshot produce permuted line lists. -/
theorem promLines_perm_witness :
    (promLines [("a", Entry.direct (.vInt 1)), ("b", Entry.direct (.vInt 2))]).Perm
      (promLines [("b", Entry.direct (.vInt 2)), ("a", Entry.direct (.vInt 1))]) :=
  promLines_perm _ _ (List.Perm.swap ("b", Entry.direct (.vInt 2)) ("a", Entry.direct (.vInt 1)) [])

/-- Counterexample to C7 as stated: the same two-entry snapshot encoded
under its two iteration orders yields different Prometheus output texts, so
two encodings of the same snapshot are not always identical. -/
theorem prom_encode_order_dependent_cex :
    ([("a", Entry.direct (.vInt 1)), ("b", Entry.direct (.vInt 2))] : Store).Perm
      [("b", Entry.direct (.vInt 2)), ("a", Entry.direct (.vInt 1))]
    ∧ promEncode [("a", Entry.direct (.vInt 1)), ("b", Entry.direct (.vInt 2))]
      ≠ promEncode [("b", Entry.direct (.vInt 2)), ("a", Entry.direct (.vInt 1))] := by
  constructor
  · exact List.Perm.swap ("b", Entry.direct (.vInt 2)) ("a", Entry.direct (.vInt 1)) []
  · decide

/-! ### Claim C6: series identity under the concatenated string keys -/

/-- Character-level view of the `"_"`-joined builder output. -/
def joinC : List (List Char) → List Char
  | [] => []
  | [p] => p
  | p :: rest => p ++ '_' :: joinC rest

theorem joinC_nil : joinC [] = [] := rfl

theorem joinC_single (p : List Char) : joinC [p] = p := rfl

theorem joinC_cons_cons (a b : List Char) (l : List (List Char)) :
    joinC (a :: b :: l) = a ++ '_' :: joinC (b :: l) := rfl

theorem joinU_data : ∀ xs : List String, (joinU xs).data = joinC (xs.map String.data)
  | [] => rfl
  | [x] => rfl
  | x :: y :: rest => by
    have ih := joinU_data (y :: rest)
    show ((x ++ "_") ++ joinU (y :: rest)).data = _
    rw [String.data_append, String.data_append, ih]
    simp [joinC_cons_cons, List.append_assoc]

theorem joinC_pieces : ∀ (ks : List String) (w : String → String),
    joinC ((ks.map (fun k => k ++ "_" ++ w k)).map String.data)
      = joinC ((ks.flatMap (fun k => [k, w k])).map String.data)
  | [], _ => rfl
  | [k], w => by
    simp only [List.map_cons, List.map_nil, List.flatMap_cons, List.flatMap_nil,
      List.cons_append, List.nil_append, List.append_nil]
    rw [joinC_single, joinC_cons_cons, joinC_single]
    rw [String.data_append, String.data_append]
    simp [List.append_assoc]
  | k :: k2 :: rest, w => by
    have ih := joinC_pieces (k2 :: rest) w
    simp only [List.map_cons, List.flatMap_cons, List.cons_append, List.nil_append] at ih ⊢
    rw [joinC_cons_cons, joinC_cons_cons, joinC_cons_cons, ih]
    rw [String.data_append, String.data_append]
    simp [List.append_assoc]

theorem sep_split (a : List Char) : ∀ (b as bs : List Char), '_' ∉ a → '_' ∉ b →
    a ++ '_' :: as = b ++ '_' :: bs → a = b ∧ as = bs := by
  induction a with
  | nil =>
    intro b as bs ha hb h
    cases b with
    | nil => simpa using h
    | cons c b =>
      exfalso
      simp only [List.nil_append, List.cons_append] at h
      injection h with h1 h2
      exact hb (List.mem_cons.mpr (Or.inl h1))
  | cons c a ih =>
    intro b as bs ha hb h
    cases b with
    | nil =>
      exfalso
      simp only [List.cons_append, List.nil_append] at h
      injection h with h1 h2
      exact ha (List.mem_cons.mpr (Or.inl h1.symm))
    | cons d b =>
      simp only [List.cons_append] at h
      injection h with h1 h2
      have ha' : '_' ∉ a := fun hm => ha (List.mem_cons_of_mem c hm)
      have hb' : '_' ∉ b := fun hm => hb (List.mem_cons_of_mem d hm)
      obtain ⟨he, ht⟩ := ih b as bs ha' hb' h2
      exact ⟨by rw [h1, he], ht⟩

theorem joinC_inj (xs : List (List Char)) : ∀ (x y : List Char) (ys : List (List Char)),
    '_' ∉ x → (∀ p ∈ xs, '_' ∉ p) → '_' ∉ y → (∀ p ∈ ys, '_' ∉ p) →
    joinC (x :: xs) = joinC (y :: ys) → x :: xs = y :: ys := by
  induction xs with
  | nil =>
    intro x y ys hx hxs hy hys h
    cases ys with
    | nil =>
      rw [joinC_single, joinC_single] at h
      rw [h]
    | cons z zs =>
      exfalso
      rw [joinC_single, joinC_cons_cons] at h
      apply hx
      rw [h]
      exact List.mem_append_right _ (List.mem_cons_self _ _)
  | cons w ws ih =>
    intro x y ys hx hxs hy hys h
    cases ys with
    | nil =>
      exfalso
      rw [joinC_cons_cons, joinC_single] at h
      apply hy
      rw [← h]
      exact List.mem_append_right _ (List.mem_cons_self _ _)
    | cons z zs =>
      rw [joinC_cons_cons, joinC_cons_cons] at h
      obtain ⟨h1, h2⟩ := sep_split x y _ _ hx hy h
      have hws : ∀ p ∈ ws, '_' ∉ p := fun p hp => hxs p (List.mem_cons_of_mem w hp)
      have hzs : ∀ p ∈ zs, '_' ∉ p := fun p hp => hys p (List.mem_cons_of_mem z hp)
      have hcons := ih w z zs (hxs w (List.mem_cons_self w ws)) hws
        (hys z (List.mem_cons_self z zs)) hzs h2
      rw [h1, hcons]

theorem flat_pairs_inj : ∀ (ks1 ks2 : List String) (w1 w2 : String → String),
    ks1.flatMap (fun k => [k, w1 k]) = ks2.flatMap (fun k => [k, w2 k]) →
    ks1 = ks2 ∧ ∀ k ∈ ks1, w1 k = w2 k
  | [], [], _, _, _ => ⟨rfl, by simp⟩
  | [], k2 :: ks2, w1, w2, h => by simp [List.flatMap_cons] at h
  | k1 :: ks1, [], w1, w2, h => by simp [List.flatMap_cons] at h
  | k1 :: ks1, k2 :: ks2, w1, w2, h => by
    simp only [List.flatMap_cons, List.cons_append, List.nil_append] at h
    injection h with h1 h'
    injection h' with h2 h''
    obtain ⟨hks, hw⟩ := flat_pairs_inj ks1 ks2 w1 w2 h''
    subst h1
    refine ⟨by rw [hks], ?_⟩
    intro k hk
    rcases List.mem_cons.mp hk with hk | hk
    · subst hk
      exact h2
    · exact hw k hk

theorem lookupStr_eq_none_iff (k : String) (L : List (String × String)) :
    lookupStr k L = none ↔ k ∉ L.map Prod.fst := by
  induction L with
  | nil => simp [lookupStr]
  | cons p rest ih =>
    obtain ⟨k2, v⟩ := p
    by_cases h : k2 = k
    · subst h
      simp [lookupStr]
    · have h' : ¬ k = k2 := fun hh => h hh.symm
      simp [lookupStr, h, h', ih]

theorem lookupStr_mem {k v : String} {L : List (String × String)}
    (h : lookupStr k L = some v) : (k, v) ∈ L := by
  induction L with
  | nil => simp [lookupStr] at h
  | cons p rest ih =>
    obtain ⟨k2, v2⟩ := p
    by_cases hk : k2 = k
    · subst hk
      simp [lookupStr] at h
      subst h
      exact List.mem_cons_self _ _
    · simp only [lookupStr, if_neg hk] at h
      exact List.mem_cons_of_mem _ (ih h)

theorem lookupStr_isSome_of_mem {k : String} {L : List (String × String)}
    (h : k ∈ L.map Prod.fst) : ∃ v, lookupStr k L = some v := by
  cases hh : lookupStr k L with
  | none => exact absurd h ((lookupStr_eq_none_iff k L).mp hh)
  | some v => exact ⟨v, rfl⟩

theorem joinC_flat_ne_nil (k : String) (ks : List String) (w : String → String) :
    joinC (((k :: ks).flatMap (fun q => [q, w q])).map String.data) ≠ [] := by
  simp only [List.flatMap_cons, List.cons_append, List.nil_append, List.map_cons]
  rw [joinC_cons_cons]
  cases hk : k.data <;> simp

theorem joinC_flat_inj (ks1 ks2 : List String) (w1 w2 : String → String)
    (h1 : ∀ k ∈ ks1, '_' ∉ k.data ∧ '_' ∉ (w1 k).data)
    (h2 : ∀ k ∈ ks2, '_' ∉ k.data ∧ '_' ∉ (w2 k).data)
    (h : joinC ((ks1.flatMap (fun k => [k, w1 k])).map String.data)
       = joinC ((ks2.flatMap (fun k => [k, w2 k])).map String.data)) :
    ks1 = ks2 ∧ ∀ k ∈ ks1, w1 k = w2 k := by
  cases ks1 with
  | nil =>
    cases ks2 with
    | nil => exact ⟨rfl, by simp⟩
    | cons k2 ks2 =>
      exfalso
      exact joinC_flat_ne_nil k2 ks2 w2 (by simpa [joinC_nil] using h.symm)
  | cons k1 ks1 =>
    cases ks2 with
    | nil =>
      exfalso
      exact joinC_flat_ne_nil k1 ks1 w1 (by simpa [joinC_nil] using h)
    | cons k2 ks2 =>
      have hflatmem1 : ∀ p ∈ ((k1 :: ks1).flatMap (fun k => [k, w1 k])), '_' ∉ p.data := by
        intro p hp
        rw [List.mem_flatMap] at hp
        obtain ⟨q, hq, hpq⟩ := hp
        rcases List.mem_cons.mp hpq with hpe | hpq
        · rw [hpe]
          exact (h1 q hq).1
        · rcases List.mem_cons.mp hpq with hpe | hpq
          · rw [hpe]
            exact (h1 q hq).2
          · simp at hpq
      have hflatmem2 : ∀ p ∈ ((k2 :: ks2).flatMap (fun k => [k, w2 k])), '_' ∉ p.data := by
        intro p hp
        rw [List.mem_flatMap] at hp
        obtain ⟨q, hq, hpq⟩ := hp
        rcases List.mem_cons.mp hpq with hpe | hpq
        · rw [hpe]
          exact (h2 q hq).1
        · rcases List.mem_cons.mp hpq with hpe | hpq
          · rw [hpe]
            exact (h2 q hq).2
          · simp at hpq
      have hmapmem1 : ∀ p ∈ (((k1 :: ks1).flatMap (fun k => [k, w1 k])).map String.data),
          '_' ∉ p := by
        intro p hp
        obtain ⟨q, hq, hpq⟩ := List.mem_map.mp hp
        exact hpq ▸ hflatmem1 q hq
      have hmapmem2 : ∀ p ∈ (((k2 :: ks2).flatMap (fun k => [k, w2 k])).map String.data),
          '_' ∉ p := by
        intro p hp
        obtain ⟨q, hq, hpq⟩ := List.mem_map.mp hp
        exact hpq ▸ hflatmem2 q hq
      simp only [List.flatMap_cons, List.cons_append, List.nil_append, List.map_cons]
        at h hmapmem1 hmapmem2
      have hx := joinC_inj ((w1 k1).data :: (ks1.flatMap (fun k => [k, w1 k])).map String.data)
        k1.data k2.data ((w2 k2).data :: (ks2.flatMap (fun k => [k, w2 k])).map String.data)
        (fun hm => hmapmem1 k1.data (List.mem_cons_self _ _) hm)
        (fun p hp => hmapmem1 p (List.mem_cons_of_mem _ hp))
        (fun hm => hmapmem2 k2.data (List.mem_cons_self _ _) hm)
        (fun p hp => hmapmem2 p (List.mem_cons_of_mem _ hp)) h
      have hmap_eq : ((k1 :: ks1).flatMap (fun k => [k, w1 k])).map String.data
          = ((k2 :: ks2).flatMap (fun k => [k, w2 k])).map String.data := by
        simpa [List.flatMap_cons, List.cons_append, List.nil_append, List.map_cons] using hx
      have hflat_eq : (k1 :: ks1).flatMap (fun k => [k, w1 k])
          = (k2 :: ks2).flatMap (fun k => [k, w2 k]) :=
        List.map_injective_iff.mpr (fun a b hab => String.ext hab) hmap_eq
      exact flat_pairs_inj _ _ _ _ hflat_eq

theorem storeKey_data (f : String) (L : List (String × String)) :
    (storeKey f L).data = f.data ++ '_' ::
      joinC (((List.insertionSort strLeR (L.map Prod.fst)).flatMap
        (fun k => [k, lookupD L k])).map String.data) := by
  have hp := joinC_pieces (List.insertionSort strLeR (L.map Prod.fst)) (fun k => lookupD L k)
  simp only at hp
  rw [storeKey]
  rw [String.data_append, String.data_append]
  simp only [buildLabelsKey]
  rw [joinU_data, hp]
  simp [List.append_assoc]

/-- Claim C6, amended: the store key of a series is the separator-joined
concatenation `family ++ "_" ++ key ++ "_" ++ value ++ ...`, so identity is
unambiguous only while no family name, label key or label value contains
the separator character `_`: under that restriction two series with equal
store keys have the same family and the same label mapping (hence distinct
`(family, labels)` pairs get distinct keys).  When the separator does occur
in a name or value, distinct `(family, labels)` pairs can collide onto the
same store key and the later write silently overwrites the earlier one (see
the counterexample). -/
theorem storeKey_sep_free_inj (f1 f2 : String) (L1 L2 : List (String × String))
    (hf1 : '_' ∉ f1.data) (hf2 : '_' ∉ f2.data)
    (hL1 : ∀ p ∈ L1, '_' ∉ (Prod.fst p).data ∧ '_' ∉ (Prod.snd p).data)
    (hL2 : ∀ p ∈ L2, '_' ∉ (Prod.fst p).data ∧ '_' ∉ (Prod.snd p).data)
    (hk : storeKey f1 L1 = storeKey f2 L2) :
    f1 = f2 ∧ ∀ k, lookupStr k L1 = lookupStr k L2 := by
  have hkdata := congrArg String.data hk
  rw [storeKey_data f1 L1, storeKey_data f2 L2] at hkdata
  obtain ⟨hf, hjoin⟩ := sep_split f1.data f2.data _ _ hf1 hf2 hkdata
  refine ⟨String.ext hf, ?_⟩
  have hks1mem : ∀ k ∈ List.insertionSort strLeR (L1.map Prod.fst),
      '_' ∉ k.data ∧ '_' ∉ (lookupD L1 k).data := by
    intro k hkmem
    have hk1 : k ∈ L1.map Prod.fst := ((List.perm_insertionSort strLeR _).mem_iff).mp hkmem
    obtain ⟨v, hv⟩ := lookupStr_isSome_of_mem hk1
    obtain ⟨p, hpmem, hpk⟩ := List.mem_map.mp hk1
    refine ⟨hpk ▸ (hL1 p hpmem).1, ?_⟩
    rw [lookupD, hv, Option.getD_some]
    exact (hL1 _ (lookupStr_mem hv)).2
  have hks2mem : ∀ k ∈ List.insertionSort strLeR (L2.map Prod.fst),
      '_' ∉ k.data ∧ '_' ∉ (lookupD L2 k).data := by
    intro k hkmem
    have hk2 : k ∈ L2.map Prod.fst := ((List.perm_insertionSort strLeR _).mem_iff).mp hkmem
    obtain ⟨v, hv⟩ := lookupStr_isSome_of_mem hk2
    obtain ⟨p, hpmem, hpk⟩ := List.mem_map.mp hk2
    refine ⟨hpk ▸ (hL2 p hpmem).1, ?_⟩
    rw [lookupD, hv, Option.getD_some]
    exact (hL2 _ (lookupStr_mem hv)).2
  obtain ⟨hks, hw⟩ := joinC_flat_inj _ _ _ _ hks1mem hks2mem hjoin
  intro k
  by_cases hmem : k ∈ L1.map Prod.fst
  · have hmem' : k ∈ List.insertionSort strLeR (L1.map Prod.fst) :=
      ((List.perm_insertionSort strLeR _).mem_iff).mpr hmem
    have hval := hw k hmem'
    have hmem2 : k ∈ L2.map Prod.fst := by
      have hm : k ∈ List.insertionSort strLeR (L2.map Prod.fst) := by
        rw [← hks]
        exact hmem'
      exact ((List.perm_insertionSort strLeR _).mem_iff).mp hm
    obtain ⟨v1, hv1⟩ := lookupStr_isSome_of_mem hmem
    obtain ⟨v2, hv2⟩ := lookupStr_isSome_of_mem hmem2
    rw [lookupD, lookupD, hv1, hv2, Option.getD_some, Option.getD_some] at hval
    rw [hv1, hv2, hval]
  · have hmem2 : k ∉ L2.map Prod.fst := by
      intro hc
      apply hmem
      have hm : k ∈ List.insertionSort strLeR (L2.map Prod.fst) :=
        ((List.perm_insertionSort strLeR _).mem_iff).mpr hc
      have hm1 : k ∈ List.insertionSort strLeR (L1.map Prod.fst) := by
        rw [hks]
        exact hm
      exact ((List.perm_insertionSort strLeR _).mem_iff).mp hm1
    rw [(lookupStr_eq_none_iff k L1).mpr hmem, (lookupStr_eq_none_iff k L2).mpr hmem2]

/-- Witness for C6 (amended) at a concrete input: two separator-free
representations of the same label map that (necessarily) share a store key
have the same lookups. -/
theorem storeKey_sep_free_inj_witness :
    lookupStr "a" [("a", "x"), ("b", "y")] = lookupStr "a" [("b", "y"), ("a", "x")] :=
  (storeKey_sep_free_inj "m" "m" [("a", "x"), ("b", "y")] [("b", "y"), ("a", "x")]
    (by decide) (by decide) (by decide) (by decide) (by decide)).2 "a"

/-- Counterexample to C6 as stated: the two series `(family "a",
labels (b ↦ c_d))` and `(family "a_b", labels (c ↦ d))` have different
(family, label set) pairs yet are stored under the identical store key
`a_b_c_d`, so a later poll writing the second silently overwrites the
first — the structured-identity requirement does not hold for the
concatenated keys the code builds. -/
theorem storeKey_collision_cex :
    storeKey "a" [("b", "c_d")] = storeKey "a_b" [("c", "d")]
    ∧ ("a", [("b", "c_d")]) ≠ ("a_b", [("c", "d")]) := by
  decide

end SqlMetrics
